import Mathlib

/-!
Verification of the token rewriter in hodoku (src/lib.rs): the procedural
macro that rewrites every try-operator token into a trailing unwrap call.
The token model mirrors proc_macro: a token tree is a delimited group, an
identifier, a punctuation character with adjacency spacing, or a literal;
every token carries an opaque source-location tag, modelled as a natural
number. A group built with Group.new carries the call-site tag, modelled
by the constant callSite.
-/

namespace Hodoku

/-- Delimiter kinds of proc_macro Delimiter. -/
inductive Delimiter where
  | parenthesis
  | brace
  | bracket
  | none
deriving DecidableEq

/-- Adjacency spacing of proc_macro Spacing. -/
inductive Spacing where
  | alone
  | joint
deriving DecidableEq

/-- Token trees of proc_macro TokenTree. Source-location tags (spans) are
opaque, modelled as naturals. A group holds a delimiter, its span and the
nested stream. -/
inductive TokenTree where
  | group (delim : Delimiter) (span : Nat) (stream : List TokenTree)
  | ident (name : String) (span : Nat)
  | punct (ch : Char) (spacing : Spacing) (span : Nat)
  | lit (text : String) (span : Nat)

/-- The span produced by constructors that do not copy a span from the
input, i.e. Group.new in the source (proc_macro gives such groups the
call-site span). -/
def callSite : Nat := 0

/-- The identifier name emitted for a marker, from Ident.new at line 165. -/
def unwrapName : String := "unwrap"

/-- The rewrite routine, from fn process (src/lib.rs lines 140-181).
The iterator with its two-token buffer is denoted as the list it yields:
a group is rebuilt with Group.new from the same delimiter and the
recursively processed inner stream (lines 154-157); a punctuation token
reading the try operator yields a joint dot, the unwrap identifier and an
empty parenthesised group, every one tagged with the marker's span
(lines 158-173); every other token is yielded unchanged (lines 174-178). -/
def process : List TokenTree → List TokenTree
  | [] => []
  | .group d _ ts :: rest =>
      .group d callSite (process ts) :: process rest
  | .punct c sp s :: rest =>
      if c = '?' then
        .punct '.' .joint s :: .ident unwrapName s ::
          .group .parenthesis s [] :: process rest
      else
        .punct c sp s :: process rest
  | .ident n s :: rest => .ident n s :: process rest
  | .lit v s :: rest => .lit v s :: process rest

/-- The three tokens emitted in place of one marker token, all carrying
the marker's span. -/
def expansion (s : Nat) : List TokenTree :=
  [.punct '.' .joint s, .ident unwrapName s, .group .parenthesis s []]

/-- The diagnostic of the item entry point, from the abort at line 117. -/
def noArgumentsMessage : String := "takes not arguments"

/-- The item-level entry point, from fn function (lines 114-121): aborts
with a diagnostic when the configuration stream has a first token,
otherwise rewrites the item. The abort is modelled as Except.error. -/
def function (args : List TokenTree) (item : List TokenTree) :
    Except String (List TokenTree) :=
  match args with
  | [] => Except.ok (process item)
  | _ :: _ => Except.error noArgumentsMessage

/-- The expression-level entry point, from fn expr (lines 135-138). -/
def expr (input : List TokenTree) : List TokenTree :=
  process input

/-- What the routine emits for one token: groups are rebuilt around the
processed inner stream, a marker becomes its three-token expansion, every
other token is kept. `process` equals concatenating this over the input. -/
def processTree : TokenTree → List TokenTree
  | .group d _ ts => [.group d callSite (process ts)]
  | .punct c sp s =>
      if c = '?' then expansion s else [.punct c sp s]
  | .ident n s => [.ident n s]
  | .lit v s => [.lit v s]

/-- Token-by-token concatenation of `processTree` over a stream. -/
def processEach : List TokenTree → List TokenTree
  | [] => []
  | t :: ts => processTree t ++ processEach ts

theorem process_cons (t : TokenTree) (ts : List TokenTree) :
    process (t :: ts) = processTree t ++ process ts := by
  cases t with
  | group d s inner => simp [process, processTree]
  | ident n s => simp [process, processTree]
  | lit v s => simp [process, processTree]
  | punct c sp s =>
      by_cases hc : c = '?' <;>
        simp [process, processTree, expansion, hc]

theorem process_eq_processEach (ts : List TokenTree) :
    process ts = processEach ts := by
  induction ts with
  | nil => simp [process, processEach]
  | cons t ts ih => rw [process_cons, processEach, ih]

theorem process_append (xs ys : List TokenTree) :
    process (xs ++ ys) = process xs ++ process ys := by
  induction xs with
  | nil => simp [process]
  | cons t xs ih =>
      rw [List.cons_append, process_cons, process_cons, ih,
        List.append_assoc]

/-- C1: a marker punctuation token anywhere in the stream is replaced by
exactly the three tokens joint dot, unwrap identifier and empty
parenthesised group, each tagged with the marker's span; in particular a
stream holding a single marker yields exactly those three tokens. -/
theorem process_expands_marker :
    (∀ (pre : List TokenTree) (sp : Spacing) (s : Nat)
        (rest : List TokenTree),
      process (pre ++ TokenTree.punct '?' sp s :: rest) =
        process pre ++
          (TokenTree.punct '.' Spacing.joint s ::
            TokenTree.ident unwrapName s ::
            TokenTree.group Delimiter.parenthesis s [] :: process rest)) ∧
    (∀ (sp : Spacing) (s : Nat),
      process [TokenTree.punct '?' sp s] =
        [TokenTree.punct '.' Spacing.joint s,
         TokenTree.ident unwrapName s,
         TokenTree.group Delimiter.parenthesis s []]) := by
  constructor
  · intro pre sp s rest
    rw [process_append, process]
    simp
  · intro sp s
    rw [process]
    simp [process]

mutual

/-- Whether a token tree holds a marker punctuation token at any depth. -/
def treeHasMarker : TokenTree → Bool
  | .group _ _ ts => streamHasMarker ts
  | .punct c _ _ => c = '?'
  | .ident _ _ => false
  | .lit _ _ => false

/-- Whether a stream holds a marker punctuation token at any depth. -/
def streamHasMarker : List TokenTree → Bool
  | [] => false
  | t :: ts => treeHasMarker t || streamHasMarker ts

end

mutual

/-- A token tree with the span of every group replaced by the call-site
span, everything else untouched: the image of a marker-free tree under
the rewrite. -/
def freshenTree : TokenTree → TokenTree
  | .group d _ ts => .group d callSite (freshenStream ts)
  | .ident n s => .ident n s
  | .punct c sp s => .punct c sp s
  | .lit v s => .lit v s

/-- `freshenTree` mapped over a stream. -/
def freshenStream : List TokenTree → List TokenTree
  | [] => []
  | t :: ts => freshenTree t :: freshenStream ts

end

mutual

theorem tree_rec_aux (P : TokenTree → Prop) (Q : List TokenTree → Prop)
    (hg : ∀ d s ts, Q ts → P (.group d s ts))
    (hi : ∀ n s, P (.ident n s))
    (hp : ∀ c sp s, P (.punct c sp s))
    (hl : ∀ v s, P (.lit v s))
    (hnil : Q [])
    (hcons : ∀ t ts, P t → Q ts → Q (t :: ts)) :
    ∀ t, P t
  | .group d s ts =>
      hg d s ts (stream_rec_aux P Q hg hi hp hl hnil hcons ts)
  | .ident n s => hi n s
  | .punct c sp s => hp c sp s
  | .lit v s => hl v s

theorem stream_rec_aux (P : TokenTree → Prop) (Q : List TokenTree → Prop)
    (hg : ∀ d s ts, Q ts → P (.group d s ts))
    (hi : ∀ n s, P (.ident n s))
    (hp : ∀ c sp s, P (.punct c sp s))
    (hl : ∀ v s, P (.lit v s))
    (hnil : Q [])
    (hcons : ∀ t ts, P t → Q ts → Q (t :: ts)) :
    ∀ ts, Q ts
  | [] => hnil
  | t :: ts =>
      hcons t ts (tree_rec_aux P Q hg hi hp hl hnil hcons t)
        (stream_rec_aux P Q hg hi hp hl hnil hcons ts)

end

theorem streamHasMarker_append (xs ys : List TokenTree) :
    streamHasMarker (xs ++ ys) =
      (streamHasMarker xs || streamHasMarker ys) := by
  induction xs with
  | nil => simp [streamHasMarker]
  | cons t xs ih =>
      rw [List.cons_append, streamHasMarker, streamHasMarker, ih,
        Bool.or_assoc]

theorem process_eq_freshen_of_no_marker :
    ∀ ts, streamHasMarker ts = false → process ts = freshenStream ts := by
  refine stream_rec_aux
    (fun t => treeHasMarker t = false → processTree t = [freshenTree t])
    (fun ts => streamHasMarker ts = false → process ts = freshenStream ts)
    ?_ ?_ ?_ ?_ ?_ ?_
  · intro d s ts ih h
    rw [treeHasMarker] at h
    simp [processTree, freshenTree, ih h]
  · intro n s _
    simp [processTree, freshenTree]
  · intro c sp s h
    rw [treeHasMarker] at h
    simp only [decide_eq_false_iff_not] at h
    simp [processTree, freshenTree, h]
  · intro v s _
    simp [processTree, freshenTree]
  · intro _
    simp [process, freshenStream]
  · intro t ts iht ihts h
    rw [streamHasMarker, Bool.or_eq_false_iff] at h
    rw [process_cons, freshenStream, iht h.1, ihts h.2]
    simp

theorem streamHasMarker_processTree :
    ∀ t, streamHasMarker (processTree t) = false := by
  refine tree_rec_aux
    (fun t => streamHasMarker (processTree t) = false)
    (fun ts => streamHasMarker (process ts) = false)
    ?_ ?_ ?_ ?_ ?_ ?_
  · intro d s ts ih
    simp [processTree, streamHasMarker, treeHasMarker, ih]
  · intro n s
    simp [processTree, streamHasMarker, treeHasMarker]
  · intro c sp s
    by_cases hc : c = '?' <;>
      simp [processTree, expansion, streamHasMarker, treeHasMarker, hc]
  · intro v s
    simp [processTree, streamHasMarker, treeHasMarker]
  · simp [process, streamHasMarker]
  · intro t ts iht ihts
    rw [process_cons, streamHasMarker_append, iht, ihts]
    simp

theorem streamHasMarker_process_eq_false :
    ∀ ts, streamHasMarker (process ts) = false := by
  intro ts
  induction ts with
  | nil => simp [process, streamHasMarker]
  | cons t ts ih =>
      rw [process_cons, streamHasMarker_append,
        streamHasMarker_processTree, ih]
      simp

/-- C2 counterexample: a marker-free stream holding one group is not
returned unchanged, because the group is rebuilt with the call-site span
in place of its original span (Group.new at line 154 does not copy the
input group's span). -/
theorem process_changes_group_span :
    streamHasMarker [TokenTree.group Delimiter.parenthesis 1 []] = false ∧
    process [TokenTree.group Delimiter.parenthesis 1 []] ≠
      [TokenTree.group Delimiter.parenthesis 1 []] := by
  constructor
  · simp [streamHasMarker, treeHasMarker]
  · intro h
    rw [process] at h
    simp [callSite, process] at h

/-- C2 amended: on a stream with no marker token at any depth the rewrite
returns the input unchanged token for token, except that every group's
source-location tag is replaced by the call-site tag (`freshenStream`);
identifiers, literals and punctuation are returned identically. -/
theorem process_id_up_to_group_spans (ts : List TokenTree)
    (h : streamHasMarker ts = false) :
    process ts = freshenStream ts :=
  process_eq_freshen_of_no_marker ts h

/-- Witness for C2 at the spec's marker-free example stream. -/
theorem process_id_up_to_group_spans_witness :
    streamHasMarker
      [TokenTree.ident unwrapName 1,
       TokenTree.punct '!' Spacing.alone 2,
       TokenTree.group Delimiter.parenthesis 3
         [TokenTree.ident unwrapName 4,
          TokenTree.punct ',' Spacing.alone 5,
          TokenTree.lit unwrapName 6]] = false ∧
    process
      [TokenTree.ident unwrapName 1,
       TokenTree.punct '!' Spacing.alone 2,
       TokenTree.group Delimiter.parenthesis 3
         [TokenTree.ident unwrapName 4,
          TokenTree.punct ',' Spacing.alone 5,
          TokenTree.lit unwrapName 6]] =
      freshenStream
        [TokenTree.ident unwrapName 1,
         TokenTree.punct '!' Spacing.alone 2,
         TokenTree.group Delimiter.parenthesis 3
           [TokenTree.ident unwrapName 4,
            TokenTree.punct ',' Spacing.alone 5,
            TokenTree.lit unwrapName 6]] := by
  refine ⟨by simp [streamHasMarker, treeHasMarker], ?_⟩
  exact process_id_up_to_group_spans _
    (by simp [streamHasMarker, treeHasMarker])

/-- C9: the output of the rewrite holds no marker token at any depth, so
a second application of the routine performs no marker expansion at all:
it only rebuilds groups, i.e. it acts as `freshenStream` on the output. -/
theorem process_eliminates_markers (ts : List TokenTree) :
    streamHasMarker (process ts) = false ∧
    process (process ts) = freshenStream (process ts) :=
  ⟨streamHasMarker_process_eq_false ts,
   process_eq_freshen_of_no_marker (process ts)
     (streamHasMarker_process_eq_false ts)⟩

/-- C3: the item-level entry point aborts exactly when the configuration
stream is non-empty, with the diagnostic that no arguments are accepted,
and with an empty configuration stream it returns exactly the rewrite of
the item. The equation returns the error without consulting the item, so
no rewriting takes part in the abort. -/
theorem function_args_check (args item : List TokenTree) :
    function args item =
      if args.isEmpty then Except.ok (process item)
      else Except.error noArgumentsMessage := by
  cases args with
  | nil => simp [function]
  | cons a args => simp [function]

/-- Streams nested under n groups with delimiter d and span s. -/
def nested (d : Delimiter) (s : Nat) : Nat → List TokenTree →
    List TokenTree
  | 0, ts => ts
  | n + 1, ts => [TokenTree.group d s (nested d s n ts)]

/-- C4: a group is re-emitted in its sibling position as a group of the
same delimiter kind around the recursively processed inner stream, and
consequently a stream nested under n groups is processed in place at
depth n with every ancestor delimiter kept. -/
theorem process_group_recursion :
    (∀ (d : Delimiter) (s : Nat) (ts rest : List TokenTree),
      process (TokenTree.group d s ts :: rest) =
        TokenTree.group d callSite (process ts) :: process rest) ∧
    (∀ (d : Delimiter) (s n : Nat) (inner : List TokenTree),
      process (nested d s n inner) =
        nested d callSite n (process inner)) := by
  constructor
  · intro d s ts rest
    rw [process]
  · intro d s n inner
    induction n with
    | zero => rw [nested, nested]
    | succ n ih => rw [nested, nested, process, ih]; simp [process]

/-- C8: both entry points delegate to the same rewrite routine: the
expression entry point is exactly the routine (it can neither validate
nor fail), and the item entry point with an empty configuration stream
returns exactly the expression entry point's output. -/
theorem entry_points_delegate (ts : List TokenTree) :
    expr ts = process ts ∧
    function [] ts = Except.ok (expr ts) := by
  exact ⟨rfl, rfl⟩

/-- A stream interleaving k marker tokens after k context segments. -/
def withMarkers : List (List TokenTree × Spacing × Nat) → List TokenTree
  | [] => []
  | (seg, sp, s) :: rest =>
      seg ++ (TokenTree.punct '?' sp s :: withMarkers rest)

/-- The same stream after the rewrite: each processed segment followed by
the expansion of its marker, in the same order. -/
def withExpansions : List (List TokenTree × Spacing × Nat) →
    List TokenTree
  | [] => []
  | (seg, _, s) :: rest =>
      process seg ++ (expansion s ++ withExpansions rest)

/-- C5: a stream holding k marker tokens at the same nesting level, each
preceded by its own context segment, rewrites to exactly k three-token
expansions, each placed where its marker stood, right after its own
rewritten context segment, independently and in order. -/
theorem process_multiplicity (ps : List (List TokenTree × Spacing × Nat)) :
    process (withMarkers ps) = withExpansions ps := by
  induction ps with
  | nil => rw [withMarkers, withExpansions, process]
  | cons p ps ih =>
      obtain ⟨seg, sp, s⟩ := p
      rw [withMarkers, withExpansions, process_append, process, ih]
      simp [expansion]

mutual

/-- The non-marker leaf tokens of a tree paired with their nesting
depth, in order: identifiers, literals and non-marker punctuation at any
depth; marker punctuation is left out. -/
def treeAtoms (d : Nat) : TokenTree → List (Nat × TokenTree)
  | .group _ _ ts => streamAtoms (d + 1) ts
  | .punct c sp s =>
      if c = '?' then [] else [(d, .punct c sp s)]
  | .ident n s => [(d, .ident n s)]
  | .lit v s => [(d, .lit v s)]

/-- `treeAtoms` concatenated over a stream. -/
def streamAtoms (d : Nat) : List TokenTree → List (Nat × TokenTree)
  | [] => []
  | t :: ts => treeAtoms d t ++ streamAtoms d ts

end

mutual

/-- The grouping delimiters of a tree paired with their nesting depth,
in order. -/
def treeDelims (d : Nat) : TokenTree → List (Nat × Delimiter)
  | .group del _ ts => (d, del) :: streamDelims (d + 1) ts
  | .punct _ _ _ => []
  | .ident _ _ => []
  | .lit _ _ => []

/-- `treeDelims` concatenated over a stream. -/
def streamDelims (d : Nat) : List TokenTree → List (Nat × Delimiter)
  | [] => []
  | t :: ts => treeDelims d t ++ streamDelims d ts

end

theorem streamAtoms_append (d : Nat) (xs ys : List TokenTree) :
    streamAtoms d (xs ++ ys) = streamAtoms d xs ++ streamAtoms d ys := by
  induction xs with
  | nil => simp [streamAtoms]
  | cons t xs ih =>
      rw [List.cons_append, streamAtoms, streamAtoms, ih,
        List.append_assoc]

theorem streamDelims_append (d : Nat) (xs ys : List TokenTree) :
    streamDelims d (xs ++ ys) =
      streamDelims d xs ++ streamDelims d ys := by
  induction xs with
  | nil => simp [streamDelims]
  | cons t xs ih =>
      rw [List.cons_append, streamDelims, streamDelims, ih,
        List.append_assoc]

theorem streamAtoms_sublist_process :
    ∀ ts, ∀ d, (streamAtoms d ts).Sublist (streamAtoms d (process ts)) := by
  refine stream_rec_aux
    (fun t => ∀ d,
      (treeAtoms d t).Sublist (streamAtoms d (processTree t)))
    (fun ts => ∀ d,
      (streamAtoms d ts).Sublist (streamAtoms d (process ts)))
    ?_ ?_ ?_ ?_ ?_ ?_
  · intro del s ts ih d
    rw [treeAtoms]
    simp only [processTree, streamAtoms, treeAtoms, List.append_nil]
    exact ih (d + 1)
  · intro n s d
    simp [processTree, streamAtoms, treeAtoms]
  · intro c sp s d
    by_cases hc : c = '?' <;>
      simp [processTree, expansion, streamAtoms, treeAtoms, hc]
  · intro v s d
    simp [processTree, streamAtoms, treeAtoms]
  · intro d
    simp [process, streamAtoms]
  · intro t ts iht ihts d
    rw [streamAtoms, process_cons, streamAtoms_append]
    exact List.Sublist.append (iht d) (ihts d)

theorem streamDelims_sublist_process :
    ∀ ts, ∀ d,
      (streamDelims d ts).Sublist (streamDelims d (process ts)) := by
  refine stream_rec_aux
    (fun t => ∀ d,
      (treeDelims d t).Sublist (streamDelims d (processTree t)))
    (fun ts => ∀ d,
      (streamDelims d ts).Sublist (streamDelims d (process ts)))
    ?_ ?_ ?_ ?_ ?_ ?_
  · intro del s ts ih d
    rw [treeDelims]
    simp only [processTree, streamDelims, treeDelims, List.append_nil]
    exact List.Sublist.cons₂ (d, del) (ih (d + 1))
  · intro n s d
    simp [processTree, streamDelims, treeDelims]
  · intro c sp s d
    by_cases hc : c = '?' <;>
      simp [processTree, expansion, streamDelims, treeDelims, hc]
  · intro v s d
    simp [processTree, streamDelims, treeDelims]
  · intro d
    simp [process, streamDelims]
  · intro t ts iht ihts d
    rw [streamDelims, process_cons, streamDelims_append]
    exact List.Sublist.append (iht d) (ihts d)

/-- C6: every non-marker token of the input — identifier, literal,
non-marker punctuation — reappears in the output at its nesting depth
and in order, every grouping delimiter of the input reappears at its
nesting depth and in order, and the rewrite is exactly the token-by-token
in-place expansion `processEach`, so only marker tokens are changed. -/
theorem process_structural_invariants (ts : List TokenTree) :
    (streamAtoms 0 ts).Sublist (streamAtoms 0 (process ts)) ∧
    (streamDelims 0 ts).Sublist (streamDelims 0 (process ts)) ∧
    process ts = processEach ts :=
  ⟨streamAtoms_sublist_process ts 0,
   streamDelims_sublist_process ts 0,
   process_eq_processEach ts⟩

theorem processTree_length_le (t : TokenTree) :
    (processTree t).length ≤ 3 := by
  cases t with
  | group d s ts => simp [processTree]
  | ident n s => simp [processTree]
  | lit v s => simp [processTree]
  | punct c sp s =>
      by_cases hc : c = '?' <;> simp [processTree, expansion, hc]

/-- C7: the rewrite is a total function on token streams (its Lean
definition is total by structural descent into groups, mirroring the
source recursion on nesting); the empty stream yields the empty stream,
and every input token yields at most three output tokens at its level. -/
theorem process_total_empty_bound :
    process [] = [] ∧
    ∀ ts : List TokenTree, (process ts).length ≤ 3 * ts.length := by
  refine ⟨by rw [process], ?_⟩
  intro ts
  induction ts with
  | nil => simp [process]
  | cons t ts ih =>
      rw [process_cons]
      have h := processTree_length_le t
      simp only [List.length_append, List.length_cons]
      omega

/-- C10: identifiers, literals and non-marker punctuation are re-emitted
unchanged, their source-location tags included; a group is re-emitted as
a freshly built group carrying the call-site tag in place of its input
tag — only its delimiter kind and rewritten inner stream are carried
over, so the output group does not depend on the input group's tag. -/
theorem process_fresh_group_spans (n v : String) (c : Char)
    (sp : Spacing) (s t : Nat) (d : Delimiter) (ts : List TokenTree)
    (h : c ≠ '?') :
    processTree (TokenTree.ident n s) = [TokenTree.ident n s] ∧
    processTree (TokenTree.lit v s) = [TokenTree.lit v s] ∧
    processTree (TokenTree.punct c sp s) =
      [TokenTree.punct c sp s] ∧
    processTree (TokenTree.group d s ts) =
      [TokenTree.group d callSite (process ts)] ∧
    processTree (TokenTree.group d s ts) =
      processTree (TokenTree.group d t ts) := by
  refine ⟨by rw [processTree], by rw [processTree], ?_, ?_, ?_⟩
  · simp [processTree, h]
  · rw [processTree]
  · rw [processTree, processTree]

/-- Witness for C10 at concrete tokens, with distinct input tags. -/
theorem process_fresh_group_spans_witness :
    processTree (TokenTree.ident unwrapName 3) =
      [TokenTree.ident unwrapName 3] ∧
    processTree (TokenTree.lit unwrapName 3) =
      [TokenTree.lit unwrapName 3] ∧
    processTree (TokenTree.punct ';' Spacing.alone 3) =
      [TokenTree.punct ';' Spacing.alone 3] ∧
    processTree (TokenTree.group Delimiter.brace 3 []) =
      [TokenTree.group Delimiter.brace callSite (process [])] ∧
    processTree (TokenTree.group Delimiter.brace 3 []) =
      processTree (TokenTree.group Delimiter.brace 5 []) :=
  process_fresh_group_spans unwrapName unwrapName ';' Spacing.alone 3 5
    Delimiter.brace [] (by decide)

end Hodoku
